import Mathlib

/-!
Verification of the lyric-rhyme-analyzer against its specification.

The repository's visible code is the React presentation layer
(`src/frontend/src/App.js`); the analysis engine behind the `/analyze`
endpoint is not part of the visible sources, so its pipeline (tokenizer,
phonetic transcriber, syllabifier, rhyme clustering, scheme/color
assignment, output composition) is modelled here from the specification.
The frontend's `handleAnalyze` state machine is embedded directly from
`App.js`.
-/

namespace RhymeAnalyzer

/-- Modelled from the spec: phonemes are symbolic units (vowel or consonant),
vowels carry a stress marker (the analysis engine holding this type is not
under `src/`). -/
inductive Phoneme where
  | vowel (sym : String) (stress : Nat)
  | consonant (sym : String)
deriving DecidableEq, Repr

/-- Modelled from the spec: a PhoneticForm is an ordered phoneme sequence
for one word token. -/
abbrev PhoneticForm := List Phoneme

/-- Modelled from the spec: the pronunciation dictionary maps a lowercase
word to one or more phoneme-sequence entries. -/
abbrev Dict := List (String × List PhoneticForm)

/-! ## Tokenizer (modelled from spec §4.1; engine not under `src/`) -/

/-- Modelled from the spec: a WordToken keeps the surface word text and the
leading/trailing punctuation separately, plus its source line index and
position within the line. -/
structure WordToken where
  pre : String
  word : String
  post : String
  lineIdx : Nat
  pos : Nat
deriving DecidableEq, Repr

/-- A character counts as alphanumeric for token stripping. -/
def isAlnum (c : Char) : Bool := c.isAlpha || c.isDigit

/-- Split a character list at every occurrence of a separator character,
keeping empty pieces (used for line splitting, so blank lines survive). -/
def splitSep (sep : Char) : List Char → List Char → List (List Char)
  | [], acc => [acc.reverse]
  | c :: cs, acc =>
    if c = sep then acc.reverse :: splitSep sep cs []
    else splitSep sep cs (c :: acc)

/-- Modelled from the spec: split raw text on line breaks, blank lines
preserved as placeholders. -/
def splitLines (t : String) : List String :=
  (splitSep '\n' t.data []).map String.mk

/-- Split a line's characters on whitespace, dropping empty pieces: the
whitespace-delimited raw tokens of the line. -/
def splitWs : List Char → List Char → List (List Char)
  | [], acc => if acc.isEmpty then [] else [acc.reverse]
  | c :: cs, acc =>
    if c.isWhitespace then
      if acc.isEmpty then splitWs cs []
      else acc.reverse :: splitWs cs []
    else splitWs cs (c :: acc)

/-- The raw whitespace-delimited tokens of one line. -/
def rawTokens (line : List Char) : List (List Char) := splitWs line []

/-- Strip leading and trailing non-alphanumeric characters of a raw token
into punctuation fields, keeping interior characters as part of the word. -/
def stripToken (s : List Char) : List Char × List Char × List Char :=
  let pre := s.takeWhile (fun c => !isAlnum c)
  let rest := s.dropWhile (fun c => !isAlnum c)
  let post := (rest.reverse.takeWhile (fun c => !isAlnum c)).reverse
  let core := (rest.reverse.dropWhile (fun c => !isAlnum c)).reverse
  (pre, core, post)

/-- Build the WordToken of one raw whitespace-delimited token. -/
def mkToken (li pos : Nat) (raw : List Char) : WordToken :=
  let (pre, core, post) := stripToken raw
  ⟨String.mk pre, String.mk core, String.mk post, li, pos⟩

/-- Enumerate a list with indices starting at `n`. -/
def enumFrom {α : Type} : Nat → List α → List (Nat × α)
  | _, [] => []
  | n, a :: as => (n, a) :: enumFrom (n + 1) as

/-- Modelled from the spec: tokenize one line into ordered word tokens. -/
def tokenizeLine (li : Nat) (line : List Char) : List WordToken :=
  (enumFrom 0 (rawTokens line)).map (fun p => mkToken li p.1 p.2)

/-- Does the string contain at least one alphabetic character? -/
def hasAlpha (s : String) : Bool := s.data.any Char.isAlpha

/-! ## Phonetic transcriber (modelled from spec §4.2; engine not under `src/`) -/

/-- Lowercase one ASCII character. -/
def lowerChar (c : Char) : Char :=
  if 'A' ≤ c && c ≤ 'Z' then Char.ofNat (c.toNat + 32) else c

/-- Lowercase a word for dictionary lookup (case-insensitive keying). -/
def normWord (w : String) : String := String.mk (w.data.map lowerChar)

/-- Is the letter one of the spelling vowels used by the heuristic? -/
def isVowelChar (c : Char) : Bool :=
  c = 'a' || c = 'e' || c = 'i' || c = 'o' || c = 'u' || c = 'y'

/-- Group a letter sequence into maximal runs of same vowel-class letters. -/
def groupRuns : List Char → List (List Char)
  | [] => []
  | c :: cs =>
    match groupRuns cs with
    | [] => [[c]]
    | [] :: rest => [c] :: [] :: rest
    | (d :: ds) :: rest =>
      if isVowelChar c = isVowelChar d then (c :: d :: ds) :: rest
      else [c] :: (d :: ds) :: rest

/-- Modelled from the spec: grapheme-to-phoneme fallback — vowel letter
clusters map to vowel phonemes, consonant letter clusters to consonant
phonemes; deterministic and total. -/
def g2p (w : String) : PhoneticForm :=
  (groupRuns ((normWord w).data.filter Char.isAlpha)).map (fun run =>
    if isVowelChar (run.headD 'a') then Phoneme.vowel (String.mk run) 0
    else Phoneme.consonant (String.mk run))

/-- Modelled from the spec: transcription — dictionary lookup on the
normalized word, first canonical entry on a hit, heuristic fallback on a
miss, and an empty PhoneticForm when the token has no alphabetic
characters. It never raises (it is a total function). -/
def transcribe (dict : Dict) (w : String) : PhoneticForm :=
  if hasAlpha w then
    match dict.find? (fun e => e.1 = normWord w) with
    | some e => e.2.headD (g2p w)
    | none => g2p w
  else []

/-! ## Syllabifier (modelled from spec §4.3; engine not under `src/`) -/

/-- Modelled from the spec: a syllable has an optional onset, a required
vowel nucleus, and an optional coda. -/
structure Syllable where
  onset : List String
  nucleus : String
  coda : List String
deriving DecidableEq, Repr

/-- Is the phoneme a vowel? -/
def isVowelP : Phoneme → Bool
  | .vowel _ _ => true
  | .consonant _ => false

/-- The phoneme's bare symbol, stress marker dropped. -/
def phSym : Phoneme → String
  | .vowel s _ => s
  | .consonant s => s

/-- Split a phoneme sequence into runs: maximal runs of consecutive
consonants, and singleton runs for each vowel. -/
def phonRuns : List Phoneme → List (List Phoneme)
  | [] => []
  | p :: ps =>
    match phonRuns ps with
    | [] => [[p]]
    | [] :: rest => [p] :: [] :: rest
    | (q :: qs) :: rest =>
      if !isVowelP p && !isVowelP q then (p :: q :: qs) :: rest
      else [p] :: (q :: qs) :: rest

/-- The bare symbols of a phoneme run. -/
def runSyms (r : List Phoneme) : List String := r.map phSym

/-- Syllabification walker over phoneme runs: accumulates the pending
onset and emits one syllable per vowel nucleus; between two vowels a
single consonant goes to the next onset while a longer cluster leaves its
first consonant in the previous coda (maximal-onset-with-coda heuristic);
trailing consonants after the last vowel form its coda. -/
def sylFromRuns (onset : List String) : List (List Phoneme) → List Syllable
  | [] => []
  | [r] =>
    match r.headD (Phoneme.consonant "") with
    | .vowel s _ => [⟨onset, s, []⟩]
    | .consonant _ => []
  | r1 :: r2 :: rest =>
    match r1.headD (Phoneme.consonant "") with
    | .consonant _ => sylFromRuns (onset ++ runSyms r1) (r2 :: rest)
    | .vowel s _ =>
      match r2.headD (Phoneme.consonant ""), rest with
      | .consonant _, [] => [⟨onset, s, runSyms r2⟩]
      | .consonant _, _ :: _ =>
        if 2 ≤ r2.length then
          ⟨onset, s, runSyms (r2.take 1)⟩ :: sylFromRuns (runSyms (r2.drop 1)) rest
        else
          ⟨onset, s, []⟩ :: sylFromRuns (runSyms r2) rest
      | .vowel _ _, _ => ⟨onset, s, []⟩ :: sylFromRuns [] (r2 :: rest)

/-- Modelled from the spec: split a PhoneticForm into syllables; a form
with no vowel yields no syllables. -/
def syllabify (pf : PhoneticForm) : List Syllable := sylFromRuns [] (phonRuns pf)

/-! ## Rhyme keys and tolerance (modelled from spec §4.3) -/

/-- Modelled from the spec: a RhymeKey is the normalized nucleus plus coda
of a syllable; onsets are ignored for rhyme comparison. -/
structure RhymeKey where
  nucleus : String
  coda : List String
deriving DecidableEq, Repr

/-- Map a voiced consonant symbol to its unvoiced partner; other symbols
are unchanged. Near-rhyme tolerance lets codas differ by at most voicing. -/
def devoice (s : String) : String :=
  if s = "B" then "P"
  else if s = "D" then "T"
  else if s = "G" then "K"
  else if s = "V" then "F"
  else if s = "Z" then "S"
  else s

/-- The tolerance-normal form of a rhyme key: nucleus plus devoiced coda. -/
def normKey (k : RhymeKey) : String × List String := (k.nucleus, k.coda.map devoice)

/-- Modelled from the spec: two keys match when identical or within the
voicing tolerance, i.e. when their normal forms agree. -/
def keyEquiv (a b : RhymeKey) : Bool := normKey a = normKey b

/-- The rhyme key of a syllable. -/
def sylKey (s : Syllable) : RhymeKey := ⟨s.nucleus, s.coda⟩

/-- Modelled from the spec: the rhyme-bearing syllable of a word token is
its last syllable; a token with no syllables bears no rhyme. -/
def lastKey? (sylls : List Syllable) : Option RhymeKey :=
  sylls.getLast?.map sylKey

/-! ## Rhyme clustering engine (modelled from spec §4.4; engine not under `src/`) -/

/-- A cluster member: the rhyme-bearing syllable of one word token,
identified by its global token index, its source line, and its key. -/
structure Member where
  idx : Nat
  lineIdx : Nat
  key : RhymeKey
deriving DecidableEq, Repr

/-- Modelled from the spec: a RhymeCluster has a stable numeric identity
assigned at creation, a first-appearance line index set once at creation,
a representative key, and a member set that only grows. -/
structure RhymeCluster where
  cid : Nat
  firstLine : Nat
  repKey : RhymeKey
  members : List Member
deriving DecidableEq, Repr

/-- Add a member to the first cluster whose representative key matches the
member's key (exactly or within tolerance); other clusters are untouched. -/
def addMember (m : Member) : List RhymeCluster → List RhymeCluster
  | [] => []
  | c :: cs =>
    if keyEquiv m.key c.repKey then
      { c with members := c.members ++ [m] } :: cs
    else c :: addMember m cs

/-- Modelled from the spec: one clustering step — the syllable joins the
matching cluster if any, otherwise a new cluster is created with this
syllable as its sole member, identity the next cluster number, and
first-appearance the current line. -/
def clusterStep (cs : List RhymeCluster) (m : Member) : List RhymeCluster :=
  if cs.any (fun c => keyEquiv m.key c.repKey) then addMember m cs
  else cs ++ [⟨cs.length, m.lineIdx, m.key, [m]⟩]

/-- Modelled from the spec: the single linear clustering pass over all
rhyme-bearing syllables in lyric order. -/
def buildClusters (ms : List Member) : List RhymeCluster :=
  ms.foldl clusterStep []

/-- Turn the in-order (line, key) pairs of all rhyme-bearing syllables
into members carrying their global processing index. -/
def mkMembers (ps : List (Nat × RhymeKey)) : List Member :=
  (enumFrom 0 ps).map (fun q => ⟨q.1, q.2.1, q.2.2⟩)

/-- Look up the cluster whose representative key matches the given key. -/
def findCluster (cs : List RhymeCluster) (k : RhymeKey) : Option RhymeCluster :=
  cs.find? (fun c => keyEquiv k c.repKey)

/-! ## Scheme & color assigner (modelled from spec §4.5; engine not under `src/`) -/

/-- The 26 upper-case letters used for scheme labels. -/
def letterChars : List Char :=
  ['A', 'B', 'C', 'D', 'E', 'F', 'G', 'H', 'I', 'J', 'K', 'L', 'M',
   'N', 'O', 'P', 'Q', 'R', 'S', 'T', 'U', 'V', 'W', 'X', 'Y', 'Z']

/-- Modelled from the spec: the n-th scheme label — A, B, … Z, then AA,
BB, …, the doubled-letter extension of the alphabet. -/
def letterName (n : Nat) : String :=
  String.mk (List.replicate (n / 26 + 1) (letterChars.getD (n % 26) 'A'))

/-- One scheme step: given the already-lettered clusters (cluster id paired
with letter rank, in first-encounter order) and the line's scheme key,
produce the updated table and the line's label; lines whose cluster has
fewer than 2 members, or no rhyme-bearing word at all, get the
placeholder. -/
def schemeStep (clusters : List RhymeCluster) (st : List (Nat × Nat)) :
    Option RhymeKey → List (Nat × Nat) × String
  | none => (st, "-")
  | some k =>
    match findCluster clusters k with
    | none => (st, "-")
    | some c =>
      if 2 ≤ c.members.length then
        match st.find? (fun p => p.1 = c.cid) with
        | some p => (st, letterName p.2)
        | none => (st ++ [(c.cid, st.length)], letterName st.length)
      else (st, "-")

/-- Modelled from the spec: the per-line scheme pass in line order. -/
def schemeFold (clusters : List RhymeCluster) (st : List (Nat × Nat)) :
    List (Option RhymeKey) → List (Nat × Nat) × List String
  | [] => (st, [])
  | k :: ks =>
    let r := schemeStep clusters st k
    let rec' := schemeFold clusters r.1 ks
    (rec'.1, r.2 :: rec'.2)

/-- Modelled from the spec: the qualifying clusters (at least 2 members),
kept in first-appearance order. -/
def qualifying (cs : List RhymeCluster) : List RhymeCluster :=
  cs.filter (fun c => 2 ≤ c.members.length)

/-- Modelled from the spec: colors are assigned once per qualifying
cluster, from the fixed ordered palette, cycling with wraparound, in
cluster first-appearance order — independent of the scheme pass. -/
def colorAssign (palette : List String) (cs : List RhymeCluster) : List (Nat × String) :=
  (enumFrom 0 (qualifying cs)).map (fun p => (p.2.cid, palette.getD (p.1 % palette.length) "#000000"))

/-- The color attached to a rhyme key: the color of its cluster, when that
cluster qualifies. -/
def colorOfKey (clusters : List RhymeCluster) (colors : List (Nat × String))
    (k : RhymeKey) : Option String :=
  match findCluster clusters k with
  | none => none
  | some c => (colors.find? (fun p => p.1 = c.cid)).map (fun p => p.2)

/-! ## Output composer (modelled from spec §4.6; engine not under `src/`) -/

/-- One rendered syllable: its grapheme fragment and its cluster color,
if any (`none` renders unstyled). -/
structure SyllablePart where
  text : String
  color : Option String
deriving DecidableEq, Repr

/-- One word entry of the output: surface word, reattached punctuation,
and the per-syllable fragments (empty when the token has no syllable
breakdown, in which case the word is rendered as a single unstyled unit). -/
structure WordEntry where
  word : String
  punct : String
  syllable_parts : List SyllablePart
deriving DecidableEq, Repr

/-- Modelled from the spec: the AnalysisResult — per-line word entries and
the parallel per-line scheme labels, index-aligned with the input lines. -/
structure AnalysisResult where
  highlighted_lyrics : List (List WordEntry)
  rhyme_scheme : List String
deriving DecidableEq, Repr

/-- Modelled from the spec: the input was empty or had no alphabetic
characters. -/
inductive MalformedInputError where
  | malformed
deriving DecidableEq, Repr

/-- Divide a word's characters into `k` contiguous chunks (the grapheme
fragments of its `k` syllables). -/
def splitChunks (s : List Char) : Nat → List (List Char)
  | 0 => []
  | 1 => [s]
  | Nat.succ (Nat.succ k) =>
    s.take (s.length / (k + 2)) :: splitChunks (s.drop (s.length / (k + 2))) (k + 1)

/-- Modelled from the spec: compose one word token — its syllable
fragments with the cluster color on the rhyme-bearing (last) syllable,
or no fragments at all when the token has no syllable breakdown. -/
def composeToken (dict : Dict) (clusters : List RhymeCluster)
    (colors : List (Nat × String)) (tok : WordToken) : WordEntry :=
  let sylls := syllabify (transcribe dict tok.word)
  let n := sylls.length
  let chunks := splitChunks tok.word.data n
  let parts := (enumFrom 0 chunks).map (fun p =>
    SyllablePart.mk (String.mk p.2)
      (if p.1 + 1 = n then (lastKey? sylls).bind (colorOfKey clusters colors) else none))
  ⟨tok.word, tok.pre ++ tok.post, parts⟩

/-- The scheme key of one line: the key of the last rhyme-bearing word
token of the line (tokens without syllables are skipped). -/
def lineKey (dict : Dict) (toks : List WordToken) : Option RhymeKey :=
  (toks.filterMap (fun t => lastKey? (syllabify (transcribe dict t.word)))).getLast?

/-- The in-order (line, key) pairs of all rhyme-bearing syllables of the
token lines. -/
def allMemberPairs (dict : Dict) (tokLines : List (List WordToken)) : List (Nat × RhymeKey) :=
  ((enumFrom 0 tokLines).map (fun p =>
    p.2.filterMap (fun t =>
      (lastKey? (syllabify (transcribe dict t.word))).map (fun k => (p.1, k))))).flatten

/-! ## The Analyze entry point (modelled from spec §6; engine not under `src/`) -/

/-- Modelled from the spec: `Analyze(lyrics) -> AnalysisResult |
MalformedInputError` — rejects input with no alphabetic characters up
front, otherwise runs the full pipeline and returns a complete result. -/
def analyze (dict : Dict) (palette : List String) (text : String) :
    Except MalformedInputError AnalysisResult :=
  if hasAlpha text then
    let lines := splitLines text
    let tokLines := (enumFrom 0 lines).map (fun p => tokenizeLine p.1 p.2.data)
    let clusters := buildClusters (mkMembers (allMemberPairs dict tokLines))
    let colors := colorAssign palette clusters
    let scheme := (schemeFold clusters [] (tokLines.map (lineKey dict))).2
    Except.ok ⟨tokLines.map (fun toks => toks.map (composeToken dict clusters colors)), scheme⟩
  else Except.error MalformedInputError.malformed

/-! ## Frontend rendering and `handleAnalyze` (embedded from `src/frontend/src/App.js`) -/

/-- From `src/frontend/src/App.js` (lines 183–213): a word entry renders
its syllable parts when present, otherwise the plain word as a single
unstyled unit. -/
def wordDisplay (w : WordEntry) : String :=
  if w.syllable_parts.isEmpty then w.word
  else String.join (w.syllable_parts.map (fun p => p.text))

/-- From `src/frontend/src/App.js` (line 178): the scheme column falls
back to the placeholder for a missing or empty entry. -/
def schemeDisplay (s : Option String) : String :=
  match s with
  | none => "-"
  | some t => if t = "" then "-" else t

/-- The component state touched by `handleAnalyze` in `App.js`. -/
structure UIState where
  loading : Bool
  error : String
  analysisData : Option AnalysisResult
deriving DecidableEq, Repr

/-- Outcome of an awaited call: a value, or a thrown error message. -/
inductive Outcome (α : Type) where
  | ok (v : α)
  | thrown (msg : String)
deriving DecidableEq, Repr

/-- JavaScript's `String.prototype.trim`, modelled structurally. -/
def trimChars (s : String) : String :=
  String.mk (((s.data.dropWhile Char.isWhitespace).reverse.dropWhile Char.isWhitespace).reverse)

/-- `err.message || 'An error occurred'` from `App.js` line 63. -/
def errMessage (msg : String) : String :=
  if msg = "" then "An error occurred" else msg

/-- From `src/frontend/src/App.js` (lines 43–67): `handleAnalyze` — blank
title or artist short-circuits with a message; otherwise loading is set,
error cleared and analysisData cleared, the lyrics are fetched (a throw is
caught), blank lyrics throw, the analysis call runs (a throw is caught),
and `finally` resets loading. -/
def handleAnalyze (songTitle artistName : String)
    (fetchR : Outcome String) (analyzeR : String → Outcome AnalysisResult)
    (s : UIState) : UIState :=
  if trimChars songTitle = "" || trimChars artistName = "" then
    { s with error := "Please enter both song title and artist name" }
  else
    let s₁ : UIState := ⟨true, "", none⟩
    let s₂ :=
      match fetchR with
      | .thrown msg => { s₁ with error := errMessage msg }
      | .ok lyrics =>
        if lyrics = "" || (trimChars lyrics).length = 0 then
          { s₁ with error := errMessage "No lyrics found for this song" }
        else
          match analyzeR lyrics with
          | .thrown msg => { s₁ with error := errMessage msg }
          | .ok a => { s₁ with analysisData := some a }
    { s₂ with loading := false }

/-! ## Clustering bookkeeping and scheme reference definitions -/

/-- The member indices claimed by the clusters, cluster by cluster. -/
def memIdxs (cs : List RhymeCluster) : List Nat :=
  (cs.map (fun c => c.members.map Member.idx)).flatten

/-- Every member of every cluster matches its cluster's representative
key up to tolerance. -/
def keysOK (cs : List RhymeCluster) : Prop :=
  ∀ c ∈ cs, ∀ m ∈ c.members, normKey m.key = normKey c.repKey

/-- The qualifying cluster id a line's scheme key points at: the id of
the matching cluster when it has at least 2 members, otherwise none. -/
def qualCid (clusters : List RhymeCluster) (k? : Option RhymeKey) : Option Nat :=
  k?.bind fun k => (findCluster clusters k).bind fun c =>
    if 2 ≤ c.members.length then some c.cid else none

/-- First occurrences of a list of cluster ids, in encounter order,
given the ids already seen: the reference order in which scheme letters
are handed out. -/
def collectFirsts (seen : List Nat) : List Nat → List Nat
  | [] => []
  | a :: l => if a ∈ seen then collectFirsts seen l else a :: collectFirsts (seen ++ [a]) l

/-- A small concrete pronunciation dictionary for witnesses. -/
def dictW : Dict :=
  [("run", [[Phoneme.consonant "R", Phoneme.vowel "AH" 1, Phoneme.consonant "N"]]),
   ("cat", [[Phoneme.consonant "K", Phoneme.vowel "AE" 1, Phoneme.consonant "T"]]),
   ("hat", [[Phoneme.consonant "HH", Phoneme.vowel "AE" 1, Phoneme.consonant "T"]]),
   ("dog", [[Phoneme.consonant "D", Phoneme.vowel "AO" 1, Phoneme.consonant "G"]])]

/-- A small concrete color palette for witnesses. -/
def palW : List String := ["#e11", "#2b2", "#33f"]

/-- A one-cluster state for witnesses. -/
def csW : List RhymeCluster := [⟨0, 0, ⟨"AE", ["T"]⟩, [⟨0, 0, ⟨"AE", ["T"]⟩⟩]⟩]

/-- A member within voicing tolerance of `csW`'s cluster, for witnesses. -/
def mW : Member := ⟨1, 1, ⟨"AE", ["D"]⟩⟩

/-- The concrete result of analyzing `"run\n\nrun"`, for the C2 witness. -/
def rW : AnalysisResult :=
  ((analyze dictW palW "run\n\nrun").toOption).getD ⟨[], []⟩

/-- The in-order syllable keys of a three-word song where the first two
words rhyme within tolerance, for the C5 witness. -/
def psW : List (Nat × RhymeKey) :=
  [(0, ⟨"AE", ["T"]⟩), (1, ⟨"AE", ["D"]⟩), (2, ⟨"AO", ["G"]⟩)]

/-- The two-member cluster the first two syllables of `psW` end up in. -/
def c5W : RhymeCluster :=
  ⟨0, 0, ⟨"AE", ["T"]⟩, [⟨0, 0, ⟨"AE", ["T"]⟩⟩, ⟨1, 1, ⟨"AE", ["D"]⟩⟩]⟩

/-- A two-cluster state — one qualifying pair, one singleton — for the C6
witness. -/
def cs6W : List RhymeCluster :=
  [⟨0, 0, ⟨"AE", ["T"]⟩, [⟨0, 0, ⟨"AE", ["T"]⟩⟩, ⟨1, 1, ⟨"AE", ["D"]⟩⟩]⟩,
   ⟨1, 2, ⟨"AO", ["G"]⟩, [⟨2, 2, ⟨"AO", ["G"]⟩⟩]⟩]

/-- The per-line scheme keys of a three-line song for the C6 witness. -/
def ks6W : List (Option RhymeKey) :=
  [some ⟨"AE", ["T"]⟩, some ⟨"AE", ["D"]⟩, some ⟨"AO", ["G"]⟩]

/-! ## Helper lemmas -/

theorem enumFrom_length {α : Type} (n : Nat) (l : List α) :
    (enumFrom n l).length = l.length := by
  induction l generalizing n with
  | nil => rfl
  | cons a as ih => simp [enumFrom, ih]

theorem enumFrom_get {α : Type} (n : Nat) (l : List α) (k : Nat)
    (hk : k < l.length) (hk' : k < (enumFrom n l).length) :
    (enumFrom n l).get ⟨k, hk'⟩ = (n + k, l.get ⟨k, hk⟩) := by
  induction l generalizing n k with
  | nil => exact absurd hk (Nat.not_lt_zero k)
  | cons a as ih =>
    cases k with
    | zero => simp [enumFrom]
    | succ k' =>
      have hk₂ : k' < as.length := Nat.lt_of_succ_lt_succ hk
      simp only [enumFrom, List.get_cons_succ]
      rw [ih (n + 1) k' hk₂]
      simp [Nat.add_assoc, Nat.add_comm 1 k']

theorem enumFrom_getElem {α : Type} (n : Nat) (l : List α) (k : Nat)
    (hk : k < l.length) (hk' : k < (enumFrom n l).length) :
    (enumFrom n l)[k] = (n + k, l[k]) := by
  induction l generalizing n k with
  | nil => exact absurd hk (Nat.not_lt_zero k)
  | cons a as ih =>
    cases k with
    | zero => simp [enumFrom]
    | succ k' =>
      have hk₂ : k' < as.length := Nat.lt_of_succ_lt_succ hk
      have hk₃ : k' < (enumFrom (n + 1) as).length := by
        rw [enumFrom_length]; exact hk₂
      simp only [enumFrom, List.getElem_cons_succ]
      rw [ih (n + 1) k' hk₂ hk₃]
      simp [Nat.add_assoc, Nat.add_comm 1 k']

theorem schemeFold_snd_length (clusters : List RhymeCluster)
    (st : List (Nat × Nat)) (ks : List (Option RhymeKey)) :
    (schemeFold clusters st ks).2.length = ks.length := by
  induction ks generalizing st with
  | nil => rfl
  | cons k ks ih => simp [schemeFold, ih]

theorem splitWs_all_ws (l : List Char) (acc : List Char)
    (h : ∀ c ∈ l, c.isWhitespace = true) :
    splitWs l acc = if acc.isEmpty then [] else [acc.reverse] := by
  induction l generalizing acc with
  | nil => rfl
  | cons c cs ih =>
    have hc : c.isWhitespace = true := h c (List.mem_cons_self c cs)
    have hrest : ∀ c' ∈ cs, c'.isWhitespace = true :=
      fun c' hc' => h c' (List.mem_cons_of_mem c hc')
    have hnil : splitWs cs [] = [] := by simpa using ih [] hrest
    by_cases hacc : acc.isEmpty
    · simp [splitWs, hc, hacc, hnil]
    · simp [splitWs, hc, hacc, hnil]

theorem hasAlpha_false_iff (t : String) :
    hasAlpha t = false ↔ ∀ c ∈ t.data, c.isAlpha = false := by
  simp [hasAlpha, List.any_eq_false]

theorem string_mk_append (a b : List Char) :
    String.mk a ++ String.mk b = String.mk (a ++ b) := rfl

/-- Decomposition of a successful join: the first matching cluster gains
the member, all clusters before it do not match, everything else is kept. -/
theorem addMember_decomp (m : Member) (cs : List RhymeCluster)
    (h : (cs.any fun c => keyEquiv m.key c.repKey) = true) :
    ∃ pre c post, cs = pre ++ c :: post ∧
      (∀ c' ∈ pre, keyEquiv m.key c'.repKey = false) ∧
      keyEquiv m.key c.repKey = true ∧
      addMember m cs = pre ++ { c with members := c.members ++ [m] } :: post := by
  induction cs with
  | nil => simp at h
  | cons c cs ih =>
    by_cases hc : keyEquiv m.key c.repKey = true
    · exact ⟨[], c, cs, rfl, by simp, hc, by simp [addMember, hc]⟩
    · have hcs : (cs.any fun c' => keyEquiv m.key c'.repKey) = true := by
        simp only [List.any_cons, Bool.or_eq_true] at h
        exact h.resolve_left hc
      obtain ⟨pre, c₀, post, hsplit, hpre, hmatch, hadd⟩ := ih hcs
      refine ⟨c :: pre, c₀, post, by simp [hsplit], ?_, hmatch, ?_⟩
      · intro c' hc'
        rcases List.mem_cons.mp hc' with h' | h'
        · subst h'; exact Bool.not_eq_true _ ▸ (by simpa using hc)
        · exact hpre c' h'
      · simp [addMember, hc, hadd]

theorem keyEquiv_iff (a b : RhymeKey) :
    keyEquiv a b = true ↔ normKey a = normKey b := by
  simp [keyEquiv]

theorem memIdxs_append (a b : List RhymeCluster) :
    memIdxs (a ++ b) = memIdxs a ++ memIdxs b := by
  simp [memIdxs]

theorem memIdxs_cons (c : RhymeCluster) (cs : List RhymeCluster) :
    memIdxs (c :: cs) = c.members.map Member.idx ++ memIdxs cs := by
  simp [memIdxs]

theorem memIdxs_clusterStep (cs : List RhymeCluster) (m : Member) :
    List.Perm (memIdxs (clusterStep cs m)) (m.idx :: memIdxs cs) := by
  by_cases h : (cs.any fun c => keyEquiv m.key c.repKey) = true
  · obtain ⟨pre, c, post, hsplit, _, _, hadd⟩ := addMember_decomp m cs h
    rw [clusterStep, if_pos h, hadd, hsplit, memIdxs_append, memIdxs_cons,
      memIdxs_append, memIdxs_cons]
    simp only [List.map_append, List.map_cons, List.map_nil]
    have hmid : List.Perm
        ((memIdxs pre ++ c.members.map Member.idx) ++ m.idx :: memIdxs post)
        (m.idx :: ((memIdxs pre ++ c.members.map Member.idx) ++ memIdxs post)) :=
      List.perm_middle
    simpa [List.append_assoc] using hmid
  · rw [clusterStep, if_neg h, memIdxs_append]
    show List.Perm (memIdxs cs ++ [m.idx]) (m.idx :: memIdxs cs)
    exact List.perm_append_singleton m.idx (memIdxs cs)

theorem keysOK_clusterStep (cs : List RhymeCluster) (m : Member)
    (h : keysOK cs) : keysOK (clusterStep cs m) := by
  by_cases hm : (cs.any fun c => keyEquiv m.key c.repKey) = true
  · obtain ⟨pre, c, post, hsplit, _, hmatch, hadd⟩ := addMember_decomp m cs hm
    rw [clusterStep, if_pos hm, hadd]
    intro c' hc' m' hm'
    rcases List.mem_append.mp hc' with hc' | hc'
    · exact h c' (hsplit ▸ List.mem_append_left _ hc') m' hm'
    · rcases List.mem_cons.mp hc' with hc' | hc'
      · subst hc'
        rcases List.mem_append.mp hm' with hm' | hm'
        · exact h c (hsplit ▸ List.mem_append_right _ (List.mem_cons_self c post)) m' hm'
        · have hmm : m' = m := by simpa using hm'
          subst hmm
          exact (keyEquiv_iff _ _).mp hmatch
      · exact h c' (hsplit ▸ List.mem_append_right _ (List.mem_cons_of_mem c hc')) m' hm'
  · rw [clusterStep, if_neg hm]
    intro c' hc' m' hm'
    rcases List.mem_append.mp hc' with hc' | hc'
    · exact h c' hc' m' hm'
    · have hc'' : c' = ⟨cs.length, m.lineIdx, m.key, [m]⟩ := by simpa using hc'
      subst hc''
      have : m' = m := by simpa using hm'
      subst this
      rfl

theorem cids_addMember (m : Member) (cs : List RhymeCluster) :
    (addMember m cs).map RhymeCluster.cid = cs.map RhymeCluster.cid := by
  induction cs with
  | nil => rfl
  | cons c cs ih =>
    by_cases hc : keyEquiv m.key c.repKey = true
    · simp [addMember, hc]
    · simp [addMember, hc, ih]

theorem cids_clusterStep (cs : List RhymeCluster) (m : Member)
    (h : cs.map RhymeCluster.cid = List.range cs.length) :
    (clusterStep cs m).map RhymeCluster.cid = List.range (clusterStep cs m).length := by
  by_cases hm : (cs.any fun c => keyEquiv m.key c.repKey) = true
  · have hlen : (addMember m cs).length = cs.length := by
      have := congrArg List.length (cids_addMember m cs)
      simpa using this
    rw [clusterStep, if_pos hm, cids_addMember, hlen, h]
  · rw [clusterStep, if_neg hm]
    simp [h, List.range_succ]

theorem buildClusters_go_cids (ms : List Member) (cs : List RhymeCluster)
    (h : cs.map RhymeCluster.cid = List.range cs.length) :
    (ms.foldl clusterStep cs).map RhymeCluster.cid =
      List.range (ms.foldl clusterStep cs).length := by
  induction ms generalizing cs with
  | nil => exact h
  | cons m ms ih => exact ih (clusterStep cs m) (cids_clusterStep cs m h)

theorem buildClusters_cids (ms : List Member) :
    (buildClusters ms).map RhymeCluster.cid = List.range (buildClusters ms).length :=
  buildClusters_go_cids ms [] rfl

/-- The clustering fold invariant: distinct member indices stay distinct
and bounded, and every member matches its cluster's key. -/
theorem buildClusters_go_inv (ms : List Member) (cs : List RhymeCluster) (n : Nat)
    (hidx : ∀ k, ∀ hk : k < ms.length, (ms.get ⟨k, hk⟩).idx = n + k)
    (hnodup : (memIdxs cs).Nodup)
    (hbound : ∀ x ∈ memIdxs cs, x < n)
    (hkeys : keysOK cs) :
    (memIdxs (ms.foldl clusterStep cs)).Nodup ∧
    (∀ x ∈ memIdxs (ms.foldl clusterStep cs), x < n + ms.length) ∧
    keysOK (ms.foldl clusterStep cs) := by
  induction ms generalizing cs n with
  | nil => exact ⟨hnodup, by simpa using hbound, hkeys⟩
  | cons m ms ih =>
    have hm : m.idx = n := by simpa using hidx 0 (by simp)
    have hperm := memIdxs_clusterStep cs m
    have hnodup' : (memIdxs (clusterStep cs m)).Nodup := by
      refine hperm.symm.nodup ?_
      refine List.Nodup.cons ?_ hnodup
      intro hmem
      exact absurd (hbound m.idx hmem) (by omega)
    have hbound' : ∀ x ∈ memIdxs (clusterStep cs m), x < n + 1 := by
      intro x hx
      rcases List.mem_cons.mp (hperm.mem_iff.mp hx) with hx | hx
      · omega
      · have := hbound x hx; omega
    have hkeys' := keysOK_clusterStep cs m hkeys
    have hidx' : ∀ k, ∀ hk : k < ms.length, (ms.get ⟨k, hk⟩).idx = (n + 1) + k := by
      intro k hk
      have := hidx (k + 1) (by simpa using Nat.succ_lt_succ hk)
      simpa [Nat.add_assoc, Nat.add_comm 1 k] using this
    have := ih (clusterStep cs m) (n + 1) hidx' hnodup' hbound' hkeys'
    refine ⟨this.1, ?_, this.2.2⟩
    intro x hx
    have := this.2.1 x hx
    simpa [Nat.add_assoc, Nat.add_comm 1 ms.length] using this

theorem mkMembers_idx (ps : List (Nat × RhymeKey)) (k : Nat)
    (hk : k < (mkMembers ps).length) : ((mkMembers ps).get ⟨k, hk⟩).idx = k := by
  have hk₁ : k < ps.length := by
    simpa [mkMembers, List.length_map, enumFrom_length] using hk
  have hk₂ : k < (enumFrom 0 ps).length := by rw [enumFrom_length]; exact hk₁
  simp only [mkMembers, List.get_eq_getElem, List.getElem_map]
  rw [enumFrom_getElem 0 ps k hk₁ hk₂]
  simp

/-- Complete case analysis of one scheme step. -/
theorem schemeStep_cases (clusters : List RhymeCluster) (st : List (Nat × Nat))
    (k : Option RhymeKey) :
    (qualCid clusters k = none ∧ schemeStep clusters st k = (st, "-")) ∨
    (∃ cid, qualCid clusters k = some cid ∧
      ((∃ p, st.find? (fun q => q.1 = cid) = some p ∧
          schemeStep clusters st k = (st, letterName p.2)) ∨
       (st.find? (fun q => q.1 = cid) = none ∧
          schemeStep clusters st k = (st ++ [(cid, st.length)], letterName st.length)))) := by
  cases k with
  | none => exact Or.inl ⟨rfl, rfl⟩
  | some key =>
    cases hfc : findCluster clusters key with
    | none => exact Or.inl ⟨by simp [qualCid, hfc], by simp [schemeStep, hfc]⟩
    | some c =>
      by_cases hlen : 2 ≤ c.members.length
      · refine Or.inr ⟨c.cid, by simp [qualCid, hfc, hlen], ?_⟩
        cases hfind : st.find? (fun q => q.1 = c.cid) with
        | some p => exact Or.inl ⟨p, rfl, by simp [schemeStep, hfc, hlen, hfind]⟩
        | none => exact Or.inr ⟨rfl, by simp [schemeStep, hfc, hlen, hfind]⟩
      · exact Or.inl ⟨by simp [qualCid, hfc, hlen], by simp [schemeStep, hfc, hlen]⟩

/-- A qualifying cluster id always names a cluster of the list with at
least two members. -/
theorem qualCid_some (clusters : List RhymeCluster) (k : Option RhymeKey) (cid : Nat)
    (h : qualCid clusters k = some cid) :
    ∃ c ∈ clusters, c.cid = cid ∧ 2 ≤ c.members.length := by
  cases k with
  | none => simp [qualCid] at h
  | some key =>
    cases hfc : findCluster clusters key with
    | none => simp [qualCid, hfc] at h
    | some c =>
      by_cases hlen : 2 ≤ c.members.length
      · have hcid : c.cid = cid := by simpa [qualCid, hfc, hlen] using h
        exact ⟨c, List.mem_of_find?_eq_some hfc, hcid, hlen⟩
      · simp [qualCid, hfc, hlen] at h

/-- The lettered-cluster table collects exactly the first occurrences of
the qualifying cluster ids of the lines, in line order. -/
theorem schemeFold_fst (clusters : List RhymeCluster) (ks : List (Option RhymeKey))
    (st : List (Nat × Nat)) :
    (schemeFold clusters st ks).1.map Prod.fst =
      st.map Prod.fst ++ collectFirsts (st.map Prod.fst) (ks.filterMap (qualCid clusters)) := by
  induction ks generalizing st with
  | nil => simp [schemeFold, collectFirsts]
  | cons k ks ih =>
    rcases schemeStep_cases clusters st k with ⟨hq, hstep⟩ | ⟨cid, hq, hcase⟩
    · simp only [schemeFold, hstep]
      rw [ih st]
      simp [List.filterMap_cons, hq]
    · rcases hcase with ⟨p, hfind, hstep⟩ | ⟨hfind, hstep⟩
      · have hp : p.1 = cid := by
          have := List.find?_some hfind
          simpa using this
        have hmem : cid ∈ st.map Prod.fst :=
          hp ▸ List.mem_map_of_mem Prod.fst (List.mem_of_find?_eq_some hfind)
        simp only [schemeFold, hstep]
        rw [ih st]
        simp [List.filterMap_cons, hq, collectFirsts, hmem]
      · have hmem : cid ∉ st.map Prod.fst := by
          intro hmem
          obtain ⟨q, hq₂, hq₃⟩ := List.mem_map.mp hmem
          have := List.find?_eq_none.mp hfind q hq₂
          simp [hq₃] at this
        simp only [schemeFold, hstep]
        rw [ih (st ++ [(cid, st.length)])]
        simp [List.filterMap_cons, hq, collectFirsts, hmem, List.append_assoc]

/-- Every table entry's letter rank equals its position: letters follow
the fixed sequence in first-encounter order. -/
theorem schemeFold_ranks (clusters : List RhymeCluster) (ks : List (Option RhymeKey))
    (st : List (Nat × Nat))
    (hst : ∀ (j : Nat) (p : Nat × Nat), st[j]? = some p → p.2 = j) :
    ∀ (j : Nat) (p : Nat × Nat), (schemeFold clusters st ks).1[j]? = some p → p.2 = j := by
  induction ks generalizing st with
  | nil => exact hst
  | cons k ks ih =>
    rcases schemeStep_cases clusters st k with ⟨_, hstep⟩ | ⟨cid, _, hcase⟩
    · intro j p hp
      simp only [schemeFold, hstep] at hp
      exact ih st hst j p hp
    · rcases hcase with ⟨q, _, hstep⟩ | ⟨hfind, hstep⟩
      · intro j p hp
        simp only [schemeFold, hstep] at hp
        exact ih st hst j p hp
      · intro j p hp
        simp only [schemeFold, hstep] at hp
        refine ih (st ++ [(cid, st.length)]) ?_ j p hp
        intro j' p' hp'
        rcases Nat.lt_or_ge j' st.length with h' | h'
        · rw [List.getElem?_append, if_pos h'] at hp'
          exact hst j' p' hp'
        · rcases Nat.lt_or_ge j' (st.length + 1) with h'' | h''
          · have hj'' : j' = st.length := by omega
            subst hj''
            have hp'' : p' = (cid, st.length) := by
              rw [List.getElem?_append, if_neg (by omega), Nat.sub_self] at hp'
              have := hp'.symm
              simpa using this
            rw [hp'']
          · rw [List.getElem?_append, if_neg (by omega)] at hp'
            rw [List.getElem?_eq_none (by simp; omega)] at hp'
            cases hp'

/-- Every table entry names a cluster of the list with at least two
members: letters go only to qualifying clusters. -/
theorem schemeFold_entries (clusters : List RhymeCluster) (ks : List (Option RhymeKey))
    (st : List (Nat × Nat))
    (hst : ∀ p ∈ st, ∃ c ∈ clusters, c.cid = p.1 ∧ 2 ≤ c.members.length) :
    ∀ p ∈ (schemeFold clusters st ks).1,
      ∃ c ∈ clusters, c.cid = p.1 ∧ 2 ≤ c.members.length := by
  induction ks generalizing st with
  | nil => exact hst
  | cons k ks ih =>
    rcases schemeStep_cases clusters st k with ⟨_, hstep⟩ | ⟨cid, hq, hcase⟩
    · intro p hp
      simp only [schemeFold, hstep] at hp
      exact ih st hst p hp
    · rcases hcase with ⟨q, _, hstep⟩ | ⟨hfind, hstep⟩
      · intro p hp
        simp only [schemeFold, hstep] at hp
        exact ih st hst p hp
      · intro p hp
        simp only [schemeFold, hstep] at hp
        refine ih (st ++ [(cid, st.length)]) ?_ p hp
        intro q hq₂
        rcases List.mem_append.mp hq₂ with hq₂ | hq₂
        · exact hst q hq₂
        · have hq₃ : q = (cid, st.length) := by simpa using hq₂
          subst hq₃
          exact qualCid_some clusters k cid hq

/-- Collecting first occurrences on top of distinct seen ids keeps all
ids distinct. -/
theorem collectFirsts_nodup (l : List Nat) (seen : List Nat) (h : seen.Nodup) :
    (seen ++ collectFirsts seen l).Nodup := by
  induction l generalizing seen with
  | nil => simpa [collectFirsts] using h
  | cons a l ih =>
    by_cases ha : a ∈ seen
    · simpa [collectFirsts, ha] using ih seen h
    · have h' : (seen ++ [a]).Nodup := by
        simp [List.nodup_append, h, ha]
      have := ih (seen ++ [a]) h'
      simpa [collectFirsts, ha, List.append_assoc] using this

/-- A line whose scheme key has no qualifying cluster gets the
placeholder label. -/
theorem schemeStep_label_none (clusters : List RhymeCluster) (st : List (Nat × Nat))
    (k : Option RhymeKey) (hq : qualCid clusters k = none) :
    (schemeStep clusters st k).2 = "-" ∧ (schemeStep clusters st k).1 = st := by
  rcases schemeStep_cases clusters st k with ⟨_, hstep⟩ | ⟨cid, hq₂, _⟩
  · rw [hstep]; exact ⟨rfl, rfl⟩
  · rw [hq] at hq₂; cases hq₂

theorem schemeFold_labels_none (clusters : List RhymeCluster) (ks : List (Option RhymeKey))
    (st : List (Nat × Nat)) :
    ∀ (i : Nat) (k : Option RhymeKey), ks[i]? = some k → qualCid clusters k = none →
      (schemeFold clusters st ks).2[i]? = some "-" := by
  induction ks generalizing st with
  | nil => intro i k hk; simp at hk
  | cons k₀ ks ih =>
    intro i k hk hq
    cases i with
    | zero =>
      have hk₀ : k₀ = k := by simpa using hk
      subst hk₀
      have hlab := (schemeStep_label_none clusters st k₀ hq).1
      simp only [schemeFold, List.getElem?_cons_zero, hlab]
    | succ i' =>
      have hk' : ks[i']? = some k := by simpa using hk
      simp only [schemeFold, List.getElem?_cons_succ]
      exact ih (schemeStep clusters st k₀).1 i' k hk' hq

/-- The 26 letters are distinct. -/
theorem letterChars_nodup : letterChars.Nodup := by decide

theorem enumFrom_map_snd {α β : Type} (f : α → β) (n : Nat) (l : List α) :
    (enumFrom n l).map (fun p => f p.2) = l.map f := by
  induction l generalizing n with
  | nil => rfl
  | cons a as ih => simp [enumFrom, ih]

/-- The scheme label sequence never repeats: distinct ranks give distinct
labels. -/
theorem letterName_inj (n m : Nat) (h : letterName n = letterName m) : n = m := by
  rw [letterName, letterName] at h
  have h₂ : List.replicate (n / 26 + 1) (letterChars.getD (n % 26) 'A') =
      List.replicate (m / 26 + 1) (letterChars.getD (m % 26) 'A') := by
    injection h
  have hlen : n / 26 + 1 = m / 26 + 1 := by
    have := congrArg List.length h₂
    simpa using this
  have hchar : letterChars.getD (n % 26) 'A' = letterChars.getD (m % 26) 'A' := by
    have := congrArg (fun l => l.headD 'B') h₂
    simpa using this
  have hn : n % 26 < letterChars.length := Nat.mod_lt _ (by norm_num)
  have hmlt : m % 26 < letterChars.length := Nat.mod_lt _ (by norm_num)
  rw [List.getD_eq_getElem _ _ hn, List.getD_eq_getElem _ _ hmlt] at hchar
  have hidx : n % 26 = m % 26 := by
    have := (List.Nodup.getElem_inj_iff letterChars_nodup).mp hchar
    exact this
  omega

/-! ## Witness fixtures -/

/-! ## Claims -/

/-- C1: Analyze is deterministic — with the dictionary contents and the
color palette fixed, two runs of `analyze` on identical input text yield
identical `AnalysisResult` structures (scheme letters and colors
included): the pipeline is a pure function of (text, dictionary,
palette), with no randomness anywhere. -/
theorem analyze_deterministic (d : Dict) (p : List String) (t : String)
    (r₁ r₂ : Except MalformedInputError AnalysisResult)
    (h₁ : analyze d p t = r₁) (h₂ : analyze d p t = r₂) : r₁ = r₂ :=
  h₁ ▸ h₂ ▸ rfl

/-- Witness for C1: two concrete runs on `"run\nrun"` agree. -/
theorem analyze_deterministic_witness :
    (Except.ok (AnalysisResult.mk
      [[⟨"run", "", [⟨"run", some "#e11"⟩]⟩], [⟨"run", "", [⟨"run", some "#e11"⟩]⟩]]
      ["A", "A"]) : Except MalformedInputError AnalysisResult) =
      analyze dictW palW "run\nrun" :=
  analyze_deterministic dictW palW "run\nrun" _ _ rfl rfl

/-- C3: `analyze` fails with `MalformedInputError` exactly when the whole
input is empty or has no alphabetic character; on every other input it
returns a complete `AnalysisResult` covering every input line — there is
no partial-success outcome. -/
theorem analyze_rejects_iff (d : Dict) (p : List String) (t : String) :
    ((analyze d p t = Except.error MalformedInputError.malformed) ↔
      (t = "" ∨ ∀ c ∈ t.data, c.isAlpha = false)) ∧
    (¬ (t = "" ∨ ∀ c ∈ t.data, c.isAlpha = false) →
      ∃ r, analyze d p t = Except.ok r ∧
        r.highlighted_lyrics.length = (splitLines t).length ∧
        r.rhyme_scheme.length = (splitLines t).length) := by
  by_cases h : hasAlpha t = true
  · have hne : ¬ (t = "" ∨ ∀ c ∈ t.data, c.isAlpha = false) := by
      rintro (rfl | hall)
      · simp [hasAlpha] at h
      · have := (hasAlpha_false_iff t).mpr hall
        simp [this] at h
    constructor
    · constructor
      · intro habs
        rw [analyze, if_pos h] at habs
        exact absurd habs (by simp)
      · intro hr; exact absurd hr hne
    · intro _
      refine ⟨_, by rw [analyze, if_pos h], ?_, ?_⟩
      · simp [List.length_map, enumFrom_length]
      · simp [schemeFold_snd_length, List.length_map, enumFrom_length]
  · have hfalse : hasAlpha t = false := by simpa using h
    have hall : ∀ c ∈ t.data, c.isAlpha = false := (hasAlpha_false_iff t).mp hfalse
    constructor
    · constructor
      · intro _; exact Or.inr hall
      · intro _; rw [analyze, if_neg h]
    · intro hne; exact absurd (Or.inr hall) hne

/-- Witness for C3: the empty input is rejected, and `"run\nrun"` is
accepted with two lines and two scheme labels. -/
theorem analyze_rejects_iff_witness :
    (analyze dictW palW "" = Except.error MalformedInputError.malformed) ∧
    (∃ r, analyze dictW palW "run\nrun" = Except.ok r ∧
      r.highlighted_lyrics.length = (splitLines "run\nrun").length ∧
      r.rhyme_scheme.length = (splitLines "run\nrun").length) :=
  ⟨(analyze_rejects_iff dictW palW "").1.mpr (Or.inl rfl),
   (analyze_rejects_iff dictW palW "run\nrun").2 (by decide)⟩

/-- C2: for every accepted input, the result has exactly one line entry
per input line and exactly one scheme label per line, index-aligned; a
whitespace-only input line is preserved as an empty placeholder line. -/
theorem analyze_line_alignment (d : Dict) (p : List String) (t : String)
    (r : AnalysisResult) (h : analyze d p t = Except.ok r) :
    r.highlighted_lyrics.length = (splitLines t).length ∧
    r.rhyme_scheme.length = r.highlighted_lyrics.length ∧
    ∀ i, ∀ hi : i < (splitLines t).length,
      (∀ c ∈ ((splitLines t).get ⟨i, hi⟩).data, c.isWhitespace = true) →
      r.highlighted_lyrics.getD i [] = [] := by
  by_cases hA : hasAlpha t = true
  · rw [analyze, if_pos hA] at h
    injection h with h
    subst h
    refine ⟨?_, ?_, ?_⟩
    · simp [List.length_map, enumFrom_length]
    · simp [schemeFold_snd_length, List.length_map, enumFrom_length]
    · intro i hi hws
      have hel : i < (enumFrom 0 (splitLines t)).length := by
        rw [enumFrom_length]; exact hi
      have hml : i <
          (((enumFrom 0 (splitLines t)).map (fun q => tokenizeLine q.1 q.2.data)).map
            (fun toks => toks.map (composeToken d
              (buildClusters (mkMembers (allMemberPairs d
                ((enumFrom 0 (splitLines t)).map (fun q => tokenizeLine q.1 q.2.data)))))
              (colorAssign p (buildClusters (mkMembers (allMemberPairs d
                ((enumFrom 0 (splitLines t)).map (fun q => tokenizeLine q.1 q.2.data))))))))).length := by
        simpa [List.length_map, enumFrom_length] using hi
      rw [List.getD_eq_getElem _ _ hml]
      have htoks : rawTokens ((splitLines t).get ⟨i, hi⟩).data = [] := by
        rw [rawTokens, splitWs_all_ws _ _ hws]
        rfl
      simp only [List.getElem_map, enumFrom_getElem 0 (splitLines t) i hi hel]
      rw [← List.get_eq_getElem (splitLines t) ⟨i, hi⟩] at *
      rw [tokenizeLine, htoks]
      rfl
  · rw [analyze, if_neg hA] at h
    exact absurd h (by simp)

/-- Witness for C2: `"run\n\nrun"` has three input lines, three line
entries, three scheme labels, and its blank middle line is preserved as an
empty placeholder. -/
theorem analyze_line_alignment_witness :
    rW.highlighted_lyrics.length = (splitLines "run\n\nrun").length ∧
    rW.rhyme_scheme.length = rW.highlighted_lyrics.length ∧
    rW.highlighted_lyrics.getD 1 [] = [] :=
  let h := analyze_line_alignment dictW palW "run\n\nrun" rW rfl
  ⟨h.1, h.2.1, h.2.2 1 (by decide) (by decide)⟩

/-- C5: in every clustering result, all members of one cluster share an
identical or tolerance-equivalent rhyme key, and no two distinct clusters
overlap in membership — every rhyme-bearing syllable (identified by its
global token index) belongs to at most one cluster. -/
theorem cluster_invariants (ps : List (Nat × RhymeKey)) :
    (∀ c ∈ buildClusters (mkMembers ps), 2 ≤ c.members.length →
      ∀ m ∈ c.members, ∀ m' ∈ c.members, keyEquiv m.key m'.key = true) ∧
    (buildClusters (mkMembers ps)).Pairwise
      (fun c c' => ∀ m ∈ c.members, ∀ m' ∈ c'.members, m.idx ≠ m'.idx) := by
  have hinv := buildClusters_go_inv (mkMembers ps) [] 0
    (fun k hk => by simpa using mkMembers_idx ps k hk)
    (by simp [memIdxs]) (by simp [memIdxs])
    (by intro c hc; simp at hc)
  have hkeys : keysOK (buildClusters (mkMembers ps)) := hinv.2.2
  constructor
  · intro c hc _ m hm m' hm'
    rw [keyEquiv_iff, hkeys c hc m hm, hkeys c hc m' hm']
  · have hnodup : (memIdxs (buildClusters (mkMembers ps))).Nodup := hinv.1
    rw [memIdxs] at hnodup
    have hpair := (List.nodup_flatten.mp hnodup).2
    have hpair₂ := List.pairwise_map.mp hpair
    refine hpair₂.imp ?_
    intro c c' hdisj m hm m' hm' heq
    exact hdisj (List.mem_map_of_mem Member.idx hm)
      (heq ▸ List.mem_map_of_mem Member.idx hm')

/-- Witness for C5: the two members of `c5W` have tolerance-equivalent
keys. -/
theorem cluster_invariants_witness :
    keyEquiv (⟨"AE", ["T"]⟩ : RhymeKey) ⟨"AE", ["D"]⟩ = true :=
  (cluster_invariants psW).1 c5W (by decide) (by decide)
    ⟨0, 0, ⟨"AE", ["T"]⟩⟩ (by decide) ⟨1, 1, ⟨"AE", ["D"]⟩⟩ (by decide)

/-- C6: scheme letters go only to clusters with at least 2 members, in
cluster first-encounter order scanning lines in order; the letter ranks
follow the fixed sequence A, B, … Z, AA, BB, … (`letterName` is injective,
so a letter is never reused for a different cluster); and a line whose
scheme key has no qualifying cluster — in particular one whose cluster has
fewer than 2 members — gets the placeholder label. -/
theorem scheme_letter_assignment (clusters : List RhymeCluster)
    (ks : List (Option RhymeKey)) :
    ((schemeFold clusters [] ks).1.map Prod.fst =
      collectFirsts [] (ks.filterMap (qualCid clusters))) ∧
    (∀ (j : Nat) (p : Nat × Nat), (schemeFold clusters [] ks).1[j]? = some p → p.2 = j) ∧
    ((schemeFold clusters [] ks).1.map Prod.fst).Nodup ∧
    (∀ p ∈ (schemeFold clusters [] ks).1,
      ∃ c ∈ clusters, c.cid = p.1 ∧ 2 ≤ c.members.length) ∧
    (∀ n m : Nat, letterName n = letterName m → n = m) ∧
    (∀ (i : Nat) (k : Option RhymeKey), ks[i]? = some k → qualCid clusters k = none →
      (schemeFold clusters [] ks).2[i]? = some "-") := by
  refine ⟨?_, schemeFold_ranks clusters ks [] (by intro j p hp; simp at hp), ?_,
    schemeFold_entries clusters ks [] (by intro p hp; simp at hp),
    letterName_inj, schemeFold_labels_none clusters ks []⟩
  · have := schemeFold_fst clusters ks []
    simpa using this
  · rw [schemeFold_fst clusters ks []]
    simpa using collectFirsts_nodup (ks.filterMap (qualCid clusters)) [] (by simp)

/-- Witness for C6: the lettered table collects the first encounters, and
the third line, whose cluster is a singleton, gets the placeholder. -/
theorem scheme_letter_assignment_witness :
    ((schemeFold cs6W [] ks6W).1.map Prod.fst =
      collectFirsts [] (ks6W.filterMap (qualCid cs6W))) ∧
    (schemeFold cs6W [] ks6W).2[2]? = some "-" :=
  ⟨(scheme_letter_assignment cs6W ks6W).1,
   (scheme_letter_assignment cs6W ks6W).2.2.2.2.2 2 (some ⟨"AO", ["G"]⟩)
     (by decide) (by decide)⟩

/-- C7: every cluster with at least 2 members receives exactly one color —
the color list names each qualifying cluster once, in first-appearance
order, and the i-th qualifying cluster gets the palette entry at
`i mod palette.length` (wraparound cycling); the assignment is a function
of the clusters and the palette only (it does not read the scheme pass),
and tolerance-equivalent keys — all syllables of one cluster — always look
up the same color. -/
theorem color_assignment (palette : List String) (ps : List (Nat × RhymeKey)) :
    ((colorAssign palette (buildClusters (mkMembers ps))).map Prod.fst =
      (qualifying (buildClusters (mkMembers ps))).map RhymeCluster.cid) ∧
    ((colorAssign palette (buildClusters (mkMembers ps))).map Prod.fst).Nodup ∧
    (∀ (i : Nat), ∀ hi : i < (colorAssign palette (buildClusters (mkMembers ps))).length,
      ∀ hi₂ : i < (qualifying (buildClusters (mkMembers ps))).length,
      (colorAssign palette (buildClusters (mkMembers ps))).get ⟨i, hi⟩ =
        (((qualifying (buildClusters (mkMembers ps))).get ⟨i, hi₂⟩).cid,
          palette.getD (i % palette.length) "#000000")) ∧
    (∀ k k' : RhymeKey, keyEquiv k k' = true →
      colorOfKey (buildClusters (mkMembers ps))
          (colorAssign palette (buildClusters (mkMembers ps))) k =
        colorOfKey (buildClusters (mkMembers ps))
          (colorAssign palette (buildClusters (mkMembers ps))) k') := by
  have hfst : (colorAssign palette (buildClusters (mkMembers ps))).map Prod.fst =
      (qualifying (buildClusters (mkMembers ps))).map RhymeCluster.cid := by
    rw [colorAssign, List.map_map]
    exact enumFrom_map_snd (fun c => c.cid) 0 (qualifying (buildClusters (mkMembers ps)))
  refine ⟨hfst, ?_, ?_, ?_⟩
  · rw [hfst]
    have hsub : (qualifying (buildClusters (mkMembers ps))).map RhymeCluster.cid
        |>.Sublist ((buildClusters (mkMembers ps)).map RhymeCluster.cid) :=
      (List.filter_sublist _).map RhymeCluster.cid
    refine hsub.nodup ?_
    rw [buildClusters_cids]
    exact List.nodup_range _
  · intro i hi hi₂
    have hi₃ : i < (enumFrom 0 (qualifying (buildClusters (mkMembers ps)))).length := by
      rw [enumFrom_length]; exact hi₂
    simp only [colorAssign, List.get_eq_getElem, List.getElem_map]
    rw [enumFrom_getElem 0 _ i hi₂ hi₃]
    simp
  · intro k k' h
    have hnk : normKey k = normKey k' := (keyEquiv_iff _ _).mp h
    have hfind : findCluster (buildClusters (mkMembers ps)) k =
        findCluster (buildClusters (mkMembers ps)) k' := by
      rw [findCluster, findCluster]
      congr 1
      funext c
      simp [keyEquiv, hnk]
    rw [colorOfKey, colorOfKey, hfind]

/-- Witness for C7: on the concrete key list `psW`, color ids are
distinct and the two tolerance-equivalent keys get the same color. -/
theorem color_assignment_witness :
    ((colorAssign palW (buildClusters (mkMembers psW))).map Prod.fst).Nodup ∧
    colorOfKey (buildClusters (mkMembers psW))
        (colorAssign palW (buildClusters (mkMembers psW))) ⟨"AE", ["T"]⟩ =
      colorOfKey (buildClusters (mkMembers psW))
        (colorAssign palW (buildClusters (mkMembers psW))) ⟨"AE", ["D"]⟩ :=
  ⟨(color_assignment palW psW).2.1,
   (color_assignment palW psW).2.2.2 ⟨"AE", ["T"]⟩ ⟨"AE", ["D"]⟩ (by decide)⟩

/-- C10: in `handleAnalyze`, whenever the fetch throws, the fetched
lyrics are empty or whitespace-only, or the analysis call throws, the
final state has `analysisData` null, `loading` reset to `false`, and
`error` set to the thrown message (or the default when the message is
empty) — no partial or stale analysis is ever displayed after a failure. -/
theorem handleAnalyze_failure_state (songTitle artistName : String)
    (fetchR : Outcome String) (analyzeR : String → Outcome AnalysisResult) (s : UIState)
    (ht : ¬ trimChars songTitle = "") (ha : ¬ trimChars artistName = "") :
    (∀ msg, fetchR = Outcome.thrown msg →
      handleAnalyze songTitle artistName fetchR analyzeR s =
        ⟨false, errMessage msg, none⟩) ∧
    (∀ lyrics, fetchR = Outcome.ok lyrics → (lyrics = "" ∨ (trimChars lyrics).length = 0) →
      handleAnalyze songTitle artistName fetchR analyzeR s =
        ⟨false, "No lyrics found for this song", none⟩) ∧
    (∀ lyrics msg, fetchR = Outcome.ok lyrics → ¬ (lyrics = "" ∨ (trimChars lyrics).length = 0) →
      analyzeR lyrics = Outcome.thrown msg →
      handleAnalyze songTitle artistName fetchR analyzeR s =
        ⟨false, errMessage msg, none⟩) := by
  refine ⟨?_, ?_, ?_⟩
  · rintro msg rfl
    simp [handleAnalyze, ht, ha]
  · rintro lyrics rfl hblank
    have hmsg : errMessage "No lyrics found for this song" =
        "No lyrics found for this song" := by decide
    rcases hblank with h | h
    · simp [handleAnalyze, ht, ha, h, hmsg]
    · simp [handleAnalyze, ht, ha, h, hmsg]
  · rintro lyrics msg rfl hnb hthrow
    have h1 : ¬ lyrics = "" := fun h => hnb (Or.inl h)
    have h2 : ¬ (trimChars lyrics).length = 0 := fun h => hnb (Or.inr h)
    simp [handleAnalyze, ht, ha, h1, h2, hthrow]

/-- Witness for C10: a concrete thrown fetch leaves no analysis data,
stops loading, and shows the thrown message. -/
theorem handleAnalyze_failure_state_witness :
    handleAnalyze "a" "b" (Outcome.thrown "boom") (fun _ => Outcome.ok ⟨[], []⟩)
      ⟨true, "", some ⟨[], []⟩⟩ = ⟨false, "boom", none⟩ :=
  (handleAnalyze_failure_state "a" "b" (Outcome.thrown "boom")
      (fun _ => Outcome.ok ⟨[], []⟩) ⟨true, "", some ⟨[], []⟩⟩
      (by decide) (by decide)).1 "boom" rfl

/-- C4: tokenizing splits each line into whitespace-delimited raw tokens
and builds each `WordToken` with `mkToken`; concatenating a token's
leading punctuation, word text and trailing punctuation reconstructs the
raw token's surface text exactly. -/
theorem token_roundtrip (li pos : Nat) (raw : List Char) :
    ((mkToken li pos raw).pre ++ (mkToken li pos raw).word ++ (mkToken li pos raw).post
      = String.mk raw) ∧
    (∀ line : List Char,
      tokenizeLine li line = (enumFrom 0 (rawTokens line)).map (fun p => mkToken li p.1 p.2)) := by
  constructor
  · show String.mk (raw.takeWhile fun c => !isAlnum c) ++
      String.mk (((raw.dropWhile fun c => !isAlnum c).reverse.dropWhile fun c => !isAlnum c).reverse) ++
      String.mk (((raw.dropWhile fun c => !isAlnum c).reverse.takeWhile fun c => !isAlnum c).reverse)
      = String.mk raw
    rw [string_mk_append, string_mk_append]
    congr 1
    rw [List.append_assoc, ← List.reverse_append,
      List.takeWhile_append_dropWhile, List.reverse_reverse,
      List.takeWhile_append_dropWhile]
  · intro line; rfl

/-- C8: when a syllable joins an existing cluster, only that cluster's
member list changes (it grows by the new member): every cluster's numeric
identity, first-appearance line and representative key are exactly as
before; and when no cluster matches, a new cluster is created with the
next identity and the current line as its first appearance — both set at
creation. -/
theorem cluster_join_frame (cs : List RhymeCluster) (m : Member) :
    ((cs.any fun c => keyEquiv m.key c.repKey) = true →
      ((clusterStep cs m).map (fun c => (c.cid, c.firstLine, c.repKey)) =
        cs.map (fun c => (c.cid, c.firstLine, c.repKey))) ∧
      ∃ pre c post, cs = pre ++ c :: post ∧ keyEquiv m.key c.repKey = true ∧
        clusterStep cs m = pre ++ { c with members := c.members ++ [m] } :: post) ∧
    ((cs.any fun c => keyEquiv m.key c.repKey) = false →
      clusterStep cs m = cs ++ [⟨cs.length, m.lineIdx, m.key, [m]⟩]) := by
  constructor
  · intro h
    obtain ⟨pre, c, post, hsplit, _, hmatch, hadd⟩ := addMember_decomp m cs h
    have hstep : clusterStep cs m = pre ++ { c with members := c.members ++ [m] } :: post := by
      rw [clusterStep, if_pos h, hadd]
    refine ⟨?_, pre, c, post, hsplit, hmatch, hstep⟩
    rw [hstep, hsplit]
    simp
  · intro h
    rw [clusterStep, if_neg (by simp [h])]

/-- Witness for C8: a member within voicing tolerance of an existing
cluster joins it without changing its identity, first line or key. -/
theorem cluster_join_frame_witness :
    ((clusterStep csW mW).map (fun c => (c.cid, c.firstLine, c.repKey)) =
      csW.map (fun c => (c.cid, c.firstLine, c.repKey))) ∧
    ∃ (pre : List RhymeCluster) (c : RhymeCluster) (post : List RhymeCluster),
      csW = pre ++ c :: post ∧
      keyEquiv mW.key c.repKey = true ∧
      clusterStep csW mW = pre ++ { c with members := c.members ++ [mW] } :: post :=
  (cluster_join_frame csW mW).1 (by decide)

/-- C9: phonetic transcription is a total function (it never raises); a
token with no alphabetic characters transcribes to the empty
`PhoneticForm`, and any token with no syllable breakdown is composed as a
single unstyled unit holding its full surface word, so an untranscribable
word never aborts the analysis. -/
theorem degraded_token_passthrough (d : Dict) (clusters : List RhymeCluster)
    (colors : List (Nat × String)) (tok : WordToken) :
    (hasAlpha tok.word = false → transcribe d tok.word = []) ∧
    (syllabify (transcribe d tok.word) = [] →
      (composeToken d clusters colors tok).syllable_parts = [] ∧
      (composeToken d clusters colors tok).word = tok.word ∧
      wordDisplay (composeToken d clusters colors tok) = tok.word) := by
  constructor
  · intro h
    rw [transcribe, if_neg (by simp [h])]
  · intro h
    refine ⟨?_, rfl, ?_⟩
    · simp [composeToken, h, splitChunks, enumFrom]
    · simp [wordDisplay, composeToken, h, splitChunks, enumFrom]

/-- Witness for C9: the digit-only token `42` transcribes to nothing and
passes through as its plain surface word. -/
theorem degraded_token_passthrough_witness :
    (composeToken [] [] [] ⟨"", "42", "", 0, 0⟩).syllable_parts = [] ∧
    (composeToken [] [] [] ⟨"", "42", "", 0, 0⟩).word = "42" ∧
    wordDisplay (composeToken [] [] [] ⟨"", "42", "", 0, 0⟩) = "42" :=
  (degraded_token_passthrough [] [] [] ⟨"", "42", "", 0, 0⟩).2 (by decide)

end RhymeAnalyzer
